import Mathlib

/-!
# Verification of the filedb storage engine

Shallow embedding of the `filedb` Go package: an embedded, file-system-backed
object store with secondary indexing.  Records are JSON documents persisted one
per file, addressed by an auto-assigned monotonic integer identifier, with
per-field equality indexes mirrored to on-disk `.idx` files and a small stat
file holding the next-identifier counter and the live record count.

Modelling conventions:
* Go `int` identifiers are `Nat` (identifiers are always ≥ 1; Go integer
  division and modulus agree with `Nat` division on non-negative values);
  the ledger count is `Int` (it is adjusted by `AddCount` with a signed delta).
* Go maps are association lists.  `map[string][]*IndexEntry` becomes
  `List (String × List IndexEntry)`; a lookup of an absent key yields the empty
  bucket, and a map assignment replaces the binding or appends a fresh one.
  Go map iteration order is unspecified; the association-list order stands in
  for it, and no theorem below depends on cross-bucket order.
* File contents are modelled structurally: the stat file as its parsed pair,
  an index file as its list of tab-separated lines, a record file as the
  decoded record (the JSON codec is an external collaborator assumed to
  round-trip).
* A Go `panic` (out-of-range slice index) is modelled by the `GoResult.panicked`
  outcome; returned `error` values by `GoResult.err` / `Except.error`.
-/

deriving instance DecidableEq for Except

/-- Error kinds surfaced by the engine (§7 of the design). `notFound` covers
`os` file-not-found and read failures, `ioError` other file-system failures. -/
inductive DBError where
  | uniqueViolation (field : String)
  | invalidIndexFile
  | notFound
  | ioError
  | configNotFound
deriving DecidableEq, Repr

/-- Outcome of a Go call: a normal return, a returned `error`, or a `panic`. -/
inductive GoResult (α : Type) where
  | ok (a : α)
  | err (e : DBError)
  | panicked
deriving DecidableEq, Repr

/-- A concrete record type satisfying the Go `FileEntity` interface
(`GetID`, `SetID`, `GetValue`): an identifier plus named string fields. -/
structure Entity where
  id : Nat
  fields : List (String × String)
deriving DecidableEq, Repr

/-- `FileEntity.GetValue`: the named field's string value, `""` if absent. -/
def Entity.GetValue (e : Entity) (f : String) : String :=
  match e.fields.find? (fun p => p.fst == f) with
  | some p => p.snd
  | none => ""

/-- `FileEntity.GetID`. -/
def Entity.GetID (e : Entity) : Nat := e.id

/-- `FileEntity.SetID`. -/
def Entity.SetID (e : Entity) (id : Nat) : Entity := { e with id := id }

/-- `FileIndexConfig` from fileIndex.go (`Include` is renamed `includes`). -/
structure FileIndexConfig where
  unique : Bool
  field : String
  includes : List String
deriving DecidableEq, Repr

/-- `IndexEntry` from fileIndex.go; the `Others` Go map is an association
list whose keys are the configured include fields. -/
structure IndexEntry where
  value : String
  id : Nat
  others : List (String × String)
deriving DecidableEq, Repr

/-- A Go map read with a default: `m[k]` yielding `d` when `k` is absent. -/
def mapRead [BEq κ] (l : List (κ × α)) (k : κ) (d : α) : α :=
  match l.find? (fun p => p.fst == k) with
  | some p => p.snd
  | none => d

/-- A Go map assignment `m[k] = v`: replace the binding or append a fresh one. -/
def mapAssign [BEq κ] (l : List (κ × α)) (k : κ) (v : α) : List (κ × α) :=
  if l.any (fun p => p.fst == k) then
    l.map (fun p => if p.fst == k then (k, v) else p)
  else l ++ [(k, v)]

/-- Lookup in an association list of strings, defaulting to `""`
(a Go `map[string]string` read of an absent key). -/
def lookupStr (l : List (String × String)) (k : String) : String :=
  mapRead l k ""

/-- Go `m[k] = v` on a `map[string]string` association list. -/
def setStr (l : List (String × String)) (k v : String) : List (String × String) :=
  mapAssign l k v

/-- One field's in-memory index: `map[string][]*IndexEntry`. -/
abbrev IndexMap : Type := List (String × List IndexEntry)

/-- Bucket read: `fi.indexes[field][value]`, empty when the key is absent. -/
def IndexMap.getBucket (m : IndexMap) (v : String) : List IndexEntry :=
  mapRead m v []

/-- Bucket write: `fi.indexes[field][value] = bucket`. -/
def IndexMap.setBucket (m : IndexMap) (v : String) (b : List IndexEntry) : IndexMap :=
  mapAssign m v b

/-- All entries of one field's index, bucket by bucket (Go iterates the map). -/
def IndexMap.allEntries (m : IndexMap) : List IndexEntry :=
  (List.map Prod.snd m).flatten

/-- `getFields` from fileIndex.go: the denormalized include-field snapshot. -/
def getFields (e : Entity) (includes : List String) : List (String × String) :=
  includes.map (fun f => (f, e.GetValue f))

/-- `createIndexEntry` from fileIndex.go. -/
def createIndexEntry (e : Entity) (field : String) (includes : List String) : IndexEntry :=
  { value := e.GetValue field, id := e.GetID, others := getFields e includes }

/-- One line of an on-disk `.idx` file, already split at tabs:
the field value, the identifier, then one column per include field. -/
abbrev IndexLine : Type := String × Nat × List String

/-- The line appended to a field's `.idx` file for one inserted entry. -/
def entryLine (ic : FileIndexConfig) (e : Entity) : IndexLine :=
  (e.GetValue ic.field, e.GetID, ic.includes.map (fun i => e.GetValue i))

/-- In-memory and on-disk state of the Index Engine (`fileIndex`):
the immutable configuration, the per-field in-memory maps, and the
per-field `.idx` file contents. -/
structure FileIndexState where
  indexConfigs : List FileIndexConfig
  indexes : List (String × IndexMap)
  idxFiles : List (String × List IndexLine)
deriving DecidableEq

/-- `fi.indexes[field]` (absent key: the empty map). -/
def FileIndexState.getIndex (fi : FileIndexState) (f : String) : IndexMap :=
  mapRead fi.indexes f []

/-- `fi.indexes[field] = m`. -/
def FileIndexState.setIndex (fi : FileIndexState) (f : String) (m : IndexMap) :
    FileIndexState :=
  { fi with indexes := mapAssign fi.indexes f m }

/-- The stored content of field `f`'s `.idx` file. -/
def FileIndexState.getFile (fi : FileIndexState) (f : String) : List IndexLine :=
  mapRead fi.idxFiles f []

/-- Overwrite field `f`'s `.idx` file content. -/
def FileIndexState.setFile (fi : FileIndexState) (f : String) (ls : List IndexLine) :
    FileIndexState :=
  { fi with idxFiles := mapAssign fi.idxFiles f ls }

/-- `GetIndexConfig` from fileIndex.go. -/
def FileIndexState.GetIndexConfig (fi : FileIndexState) (name : String) :
    Option FileIndexConfig :=
  fi.indexConfigs.find? (fun ic => ic.field == name)

/-- The lines `Save` writes for one in-memory index map: for every bucket, one
line per entry — the bucket key, the entry id, then each include field from the
entry's `Others` map (absent keys print as `""`). -/
def linesOfMap (m : IndexMap) (includes : List String) : List IndexLine :=
  (List.map (fun p =>
      List.map (fun ent =>
        ((p.fst, ent.id, includes.map (fun i => lookupStr ent.others i)) : IndexLine))
        p.snd) m).flatten

/-- `fileIndex.Save`: rewrite field `name`'s `.idx` file from memory
(the include list comes from `GetIndexConfig`; `nil` config writes no columns). -/
def FileIndexState.Save (fi : FileIndexState) (name : String) : FileIndexState :=
  let includes :=
    match fi.GetIndexConfig name with
    | some ic => ic.includes
    | none => []
  fi.setFile name (linesOfMap (fi.getIndex name) includes)

/-- One iteration of `fileIndex.Insert`'s mutation loop for one configured
field: append the new entry to the in-memory bucket for the record's value,
and append one line to the field's `.idx` file. -/
def insertConfigStep (e : Entity) (s : FileIndexState) (ic : FileIndexConfig) :
    FileIndexState :=
  let v := e.GetValue ic.field
  let b := (s.getIndex ic.field).getBucket v
  let s1 := s.setIndex ic.field
    ((s.getIndex ic.field).setBucket v (b ++ [createIndexEntry e ic.field ic.includes]))
  s1.setFile ic.field (s1.getFile ic.field ++ [entryLine ic e])

/-- `fileIndex.Insert`: a validation pre-pass over every configured field
(first unique field whose bucket for the new value is non-empty aborts with a
unique-violation error, before any mutation), then the per-field mutation
loop. -/
def FileIndexState.Insert (fi : FileIndexState) (e : Entity) :
    Except DBError FileIndexState :=
  match fi.indexConfigs.find? (fun ic =>
      ic.unique && !((fi.getIndex ic.field).getBucket (e.GetValue ic.field)).isEmpty) with
  | some ic => .error (.uniqueViolation ic.field)
  | none => .ok (fi.indexConfigs.foldl (insertConfigStep e) fi)

/-- Fold a fallible Go loop body over a list, stopping at the first
returned error or panic. -/
def goFold (f : σ → α → GoResult σ) : σ → List α → GoResult σ
  | s, [] => .ok s
  | s, a :: rest =>
    match f s a with
    | .ok s1 => goFold f s1 rest
    | .err e => .err e
    | .panicked => .panicked

/-- The pure per-field effect of `fileIndex.Update` on that field's in-memory
map: `none` models the panic of `slices.IndexFunc` returning `-1`; otherwise
the new map together with whether anything changed (i.e. whether the source
rewrites the field's file).  Unchanged value: refresh the changed include
columns of the entry carrying the record's id, in place; changed value:
remove the old entry (identified by the record's id) from the old bucket and
append a fresh entry to the new bucket. -/
def updateFieldMap (e prev : Entity) (ic : FileIndexConfig) (m : IndexMap) :
    Option (IndexMap × Bool) :=
  let newKeyValue := e.GetValue ic.field
  let oldKeyValue := prev.GetValue ic.field
  if newKeyValue == oldKeyValue then
    let indexEntries := m.getBucket newKeyValue
    let changedFields := ic.includes.filter (fun f => e.GetValue f != prev.GetValue f)
    if changedFields.isEmpty then some (m, false)
    else
      match indexEntries.findIdx? (fun item => prev.GetID == item.id) with
      | none => none
      | some entryIndex =>
        let newEntries := indexEntries.enum.map (fun p =>
          if p.fst = entryIndex then
            { p.snd with others :=
                changedFields.foldl (fun o f => setStr o f (e.GetValue f)) p.snd.others }
          else p.snd)
        some (m.setBucket newKeyValue newEntries, true)
  else
    let oldIndexEntries := m.getBucket oldKeyValue
    match oldIndexEntries.findIdx? (fun item => prev.GetID == item.id) with
    | none => none
    | some oldEntryIndex =>
      let m1 := m.setBucket oldKeyValue (oldIndexEntries.eraseIdx oldEntryIndex)
      some (m1.setBucket newKeyValue
        (m1.getBucket newKeyValue ++ [createIndexEntry e ic.field ic.includes]), true)

/-- Shape shared by the per-config loop bodies of `Update` and `Delete`:
apply the field's pure map effect (`none` = panic); when something changed,
store the new map and rewrite the field's file (`Save`). -/
def fieldStep (fMap : FileIndexConfig → IndexMap → Option (IndexMap × Bool))
    (s : FileIndexState) (ic : FileIndexConfig) : GoResult FileIndexState :=
  match fMap ic (s.getIndex ic.field) with
  | none => .panicked
  | some (m, changed) =>
    if changed then .ok ((s.setIndex ic.field m).Save ic.field) else .ok s

/-- One iteration of `fileIndex.Update`'s per-config mutation loop. -/
def updateConfigStep (e prev : Entity) :
    FileIndexState → FileIndexConfig → GoResult FileIndexState :=
  fieldStep (updateFieldMap e prev)

/-- `fileIndex.Update`: validate uniqueness for every field whose value
changed (first violation aborts before any mutation), then run the per-config
mutation loop. -/
def FileIndexState.Update (fi : FileIndexState) (e prev : Entity) :
    GoResult FileIndexState :=
  match fi.indexConfigs.find? (fun ic =>
      (e.GetValue ic.field != prev.GetValue ic.field) && ic.unique &&
      !((fi.getIndex ic.field).getBucket (e.GetValue ic.field)).isEmpty) with
  | some ic => .err (.uniqueViolation ic.field)
  | none => goFold (updateConfigStep e prev) fi fi.indexConfigs

/-- The pure per-field effect of `fileIndex.Delete`: remove the entry whose
id matches the record's from the bucket of the record's current value;
`none` models the panic of `slices.IndexFunc` returning `-1`. -/
def deleteFieldMap (prev : Entity) (ic : FileIndexConfig) (m : IndexMap) :
    Option IndexMap :=
  let index := m.getBucket (prev.GetValue ic.field)
  match index.findIdx? (fun item => prev.GetID == item.id) with
  | none => none
  | some ci => some (m.setBucket (prev.GetValue ic.field) (index.eraseIdx ci))

/-- One iteration of `fileIndex.Delete`'s loop: apply the field's map effect,
store it and rewrite the field's file (the delete loop always rewrites). -/
def deleteConfigStep (prev : Entity) :
    FileIndexState → FileIndexConfig → GoResult FileIndexState :=
  fieldStep (fun ic m => (deleteFieldMap prev ic m).map (fun m2 => (m2, true)))

def FileIndexState.Delete (fi : FileIndexState) (prev : Entity) :
    GoResult FileIndexState :=
  goFold (deleteConfigStep prev) fi fi.indexConfigs

/-- `fileIndex.FindId`: first matching identifier, `0` when none. -/
def FileIndexState.FindId (fi : FileIndexState) (field value : String) : Nat :=
  match (fi.getIndex field).getBucket value with
  | [] => 0
  | ent :: _ => ent.id

/-- `fileIndex.SearchId`: all identifiers of the bucket, in bucket order. -/
def FileIndexState.SearchId (fi : FileIndexState) (field value : String) : List Nat :=
  ((fi.getIndex field).getBucket value).map (fun ent => ent.id)

/-- `fileIndex.SearchIndex`: the bucket itself. -/
def FileIndexState.SearchIndex (fi : FileIndexState) (field value : String) :
    List IndexEntry :=
  (fi.getIndex field).getBucket value

/-- `fileIndex.SearchAllIndex`: every entry of the field's index. -/
def FileIndexState.SearchAllIndex (fi : FileIndexState) (field : String) :
    List IndexEntry :=
  (fi.getIndex field).allEntries

/-- `fileIndex.FindMaxIdAndCount`: scan one index map (Go iterates the
`indexes` map and breaks after the first entry; the association list's head
stands in for that arbitrary choice) and report the maximum identifier seen
and the total entry count. -/
def FileIndexState.FindMaxIdAndCount (fi : FileIndexState) : Nat × Nat :=
  match fi.indexes.head? with
  | none => (0, 0)
  | some p =>
    (p.snd.allEntries.foldl (fun mx ent => if ent.id > mx then ent.id else mx) 0,
     p.snd.allEntries.length)

/-- `fileIndex.ListAllIds`: all identifiers of the first configured field's
index; empty when no field is configured. -/
def FileIndexState.ListAllIds (fi : FileIndexState) : List Nat :=
  match fi.indexConfigs with
  | [] => []
  | ic :: _ => (fi.getIndex ic.field).allEntries.map (fun ent => ent.id)

/-! ## Ledger (`fileStat`) -/

/-- In-memory ledger state: the next-identifier counter and the live count. -/
structure FileStatState where
  nextID : Nat
  count : Int
deriving DecidableEq, Repr

/-- Ledger with its persisted `_stat.dat` file (parsed as the pair it holds;
`none` when the file is absent). -/
structure LedgerState where
  mem : FileStatState
  file : Option (Nat × Int)
deriving DecidableEq, Repr

/-- `NewFileStat`: fresh in-memory state over whatever is on disk. -/
def newFileStat (onDisk : Option (Nat × Int)) : LedgerState :=
  { mem := { nextID := 1, count := 0 }, file := onDisk }

/-- `fileStat.Save`: persist the in-memory pair to `_stat.dat`. -/
def LedgerState.save (s : LedgerState) : LedgerState :=
  { s with file := some (s.mem.nextID, s.mem.count) }

/-- `fileStat.Load`: read the two integers back from `_stat.dat`
(only called when the file is present). -/
def LedgerState.load (s : LedgerState) : LedgerState :=
  match s.file with
  | some p => { s with mem := { nextID := p.fst, count := p.snd } }
  | none => s

/-- `fileStat.Init` from src/fileStat.go: if the stat file is absent, create it
holding the current in-memory pair; otherwise load from it. -/
def LedgerState.initSimple (s : LedgerState) : LedgerState :=
  match s.file with
  | none => s.save
  | some _ => s.load

/-- `fileStat[T].Init` from the generic revision: if the stat file is absent,
derive `nextID`/`count` from the Index Engine (`FindMaxIdAndCount`, then
`nextID++`) and persist the pair; otherwise load from the file. -/
def LedgerState.initDerive (s : LedgerState) (fi : FileIndexState) : LedgerState :=
  match s.file with
  | none =>
    let mc := fi.FindMaxIdAndCount
    ({ s with mem := { nextID := mc.fst + 1, count := (mc.snd : Int) } }).save
  | some _ => s.load

/-- `fileStat.GetNextID`: peek returns the counter unchanged; otherwise the
counter is returned, incremented and the new pair persisted. -/
def LedgerState.GetNextID (s : LedgerState) (peek : Bool) : Nat × LedgerState :=
  if peek then (s.mem.nextID, s)
  else
    let id := s.mem.nextID
    (id, ({ s with mem := { s.mem with nextID := id + 1 } }).save)

/-- `fileStat.GetCount`. -/
def LedgerState.GetCount (s : LedgerState) : Int := s.mem.count

/-- `fileStat.AddCount`: apply the delta and persist. -/
def LedgerState.AddCount (s : LedgerState) (c : Int) : LedgerState :=
  ({ s with mem := { s.mem with count := s.mem.count + c } }).save

/-! ## Object store paths (`GetObjectPath`) -/

/-- Decimal digit characters of `n`, most significant first, with enough fuel
(structural recursion so that the kernel can evaluate it, in the style of the
core library's `Nat.toDigitsCore`). -/
def toDecAux : Nat → Nat → List Char
  | 0, _ => []
  | f + 1, n =>
    if n < 10 then [Nat.digitChar n]
    else toDecAux f (n / 10) ++ [Nat.digitChar (n % 10)]

/-- Model of `strconv.Itoa` on a non-negative value: the decimal digit string,
most significant digit first. -/
def natStr (n : Nat) : String := ⟨toDecAux (n + 1) n⟩

/-- The digit-name segments the sharding loop collects from `id / 1000`:
decimal digits peeled least-significant first, zero digits skipped
(fuel-based structural recursion over the loop variable). -/
def shardAux : Nat → Nat → List String
  | 0, _ => []
  | f + 1, q =>
    if q = 0 then []
    else (if q % 10 > 0 then [natStr (q % 10)] else []) ++ shardAux f (q / 10)

/-- The `nums` list `GetObjectPath`'s loop builds from the quotient `id / 1000`. -/
def shardNums (q : Nat) : List String := shardAux (q + 1) q

/-- `fileDB.GetObjectPath`: the exact string the source builds —
`path + "/" + strings.Join(nums, "/") + strconv.Itoa(id) + ".dat"`
(`filepath.FromSlash` is the identity on Unix; note the source places no
slash between the joined shard segments and the file name). -/
def GetObjectPath (root : String) (id : Nat) : String :=
  root ++ "/" ++ String.intercalate "/" (shardNums (id / 1000)) ++ natStr id ++ ".dat"

/-! ## Coordinator (`fileDB`) -/

/-- Whole-store state: ledger, index engine, and the object store as the
map from identifier to the decoded record stored in that id's file. -/
structure DBState where
  stat : LedgerState
  index : FileIndexState
  objects : List (Nat × Entity)
deriving DecidableEq

/-- Object-store read (`ReadObject` on `GetObjectPath id`): the decoded
record, or a not-found error when no file exists for the id. -/
def DBState.Find (s : DBState) (id : Nat) : GoResult Entity :=
  match s.objects.find? (fun p => p.fst == id) with
  | some p => .ok p.snd
  | none => .err .notFound

/-- Object-store write (`os.WriteFile` on `GetObjectPath id`): overwrite
semantics. -/
def writeObject (objs : List (Nat × Entity)) (id : Nat) (e : Entity) :
    List (Nat × Entity) :=
  mapAssign objs id e

/-- Object-store delete (`os.Remove` on `GetObjectPath id`). -/
def removeObject (objs : List (Nat × Entity)) (id : Nat) : List (Nat × Entity) :=
  objs.filter (fun p => !(p.fst == id))

/-- `fileDB.Insert`: allocate an id (non-peek, already persisted), stamp it on
the record, run the Index Engine insert (a failure leaves the id consumed and
everything else untouched), then increment the ledger count and write the
record file.  Returns the final state plus the stored record on success. -/
def DBState.Insert (s : DBState) (e : Entity) : DBState × GoResult Entity :=
  let idSt := s.stat.GetNextID false
  let e1 := e.SetID idSt.fst
  match s.index.Insert e1 with
  | .error er => ({ s with stat := idSt.snd }, .err er)
  | .ok fi1 =>
    ({ stat := idSt.snd.AddCount 1, index := fi1,
       objects := writeObject s.objects e1.GetID e1 }, .ok e1)

/-- `fileDB.Update`: load the previous version, run the Index Engine update,
then overwrite the record file. -/
def DBState.Update (s : DBState) (e : Entity) : DBState × GoResult Unit :=
  match s.Find e.GetID with
  | .err er => (s, .err er)
  | .panicked => (s, .panicked)
  | .ok prev =>
    match s.index.Update e prev with
    | .err er => (s, .err er)
    | .panicked => (s, .panicked)
    | .ok fi1 =>
      ({ s with index := fi1, objects := writeObject s.objects e.GetID e }, .ok ())

/-- `fileDB.Delete`: load the previous version, decrement the ledger count,
remove the index entries, then remove the record file.  On an index panic the
in-memory state dies with the process; the returned state is the one at the
panic point (the count decrement is already persisted). -/
def DBState.Delete (s : DBState) (id : Nat) : DBState × GoResult Unit :=
  match s.Find id with
  | .err er => (s, .err er)
  | .panicked => (s, .panicked)
  | .ok prev =>
    let st1 := s.stat.AddCount (-1)
    match s.index.Delete prev with
    | .err er => ({ s with stat := st1 }, .err er)
    | .panicked => ({ s with stat := st1 }, .panicked)
    | .ok fi1 =>
      ({ stat := st1, index := fi1, objects := removeObject s.objects id }, .ok ())

/-- The record-loading loop of `fileDB.List`: load each id in order,
returning the first failure. -/
def loadEach (s : DBState) : List Nat → GoResult (List Entity)
  | [] => .ok []
  | id :: rest =>
    match s.Find id with
    | .ok e =>
      match loadEach s rest with
      | .ok es => .ok (e :: es)
      | .err er => .err er
      | .panicked => .panicked
    | .err er => .err er
    | .panicked => .panicked

/-- `fileDB.List`: resolve ids through the index, then load each record. -/
def DBState.List (s : DBState) (field value : String) : GoResult (List Entity) :=
  loadEach s (s.index.SearchId field value)

/-- `fileDB.GetCount`. -/
def DBState.GetCount (s : DBState) : Int := s.stat.GetCount

/-- `fileDB.PeekNextID`. -/
def DBState.PeekNextID (s : DBState) : Nat := (s.stat.GetNextID true).fst

/-! ## Index file loading and per-field `Init` (`LoadIndex`, `fileIndex.Init`) -/

/-- Leading decimal-digit run of a character list, accumulator style. -/
def scanDigits : Nat → List Char → Nat
  | acc, [] => acc
  | acc, c :: rest =>
    if c.isDigit then scanDigits (acc * 10 + (c.toNat - 48)) rest else acc

/-- `fmt.Sscanf(s, "%d", &id)` on a non-negative decimal: the leading digit
run's value, `0` when the string does not start with a digit (the scan error
is ignored by the source). -/
def scanGoInt (s : String) : Nat := scanDigits 0 s.data

/-- One iteration of `LoadIndex`'s scanner loop.  A raw text line is
represented by its tab-split columns (Go `strings.Split(line, "\t")`); the
empty line splits into `[""]` and is skipped.  A line whose column count
differs from two plus the include-list length is rejected as structurally
invalid; otherwise the parsed entry is appended to its value's bucket. -/
def loadLine (ic : FileIndexConfig) (m : IndexMap) (parts : List String) :
    Except DBError IndexMap :=
  if parts == [""] then .ok m
  else
    if parts.length ≠ ic.includes.length + 2 then .error .invalidIndexFile
    else
      let value := parts.headD ""
      let id := scanGoInt (parts.getD 1 "")
      let others := ic.includes.enum.map (fun p => (p.snd, parts.getD (p.fst + 2) ""))
      .ok (m.setBucket value
        (m.getBucket value ++ [{ value := value, id := id, others := others }]))

/-- `fileIndex.LoadIndex`: look up the field's configuration, read the file
(`readRes` models the open/read outcome), then parse line by line into a
fresh in-memory map for the field. -/
def FileIndexState.LoadIndex (fi : FileIndexState) (name : String)
    (readRes : Except DBError (List (List String))) : Except DBError FileIndexState :=
  match fi.GetIndexConfig name with
  | none => .error .configNotFound
  | some ic =>
    match readRes with
    | .error er => .error er
    | .ok lines =>
      match lines.foldlM (loadLine ic) ([] : IndexMap) with
      | .error er => .error er
      | .ok m => .ok (fi.setIndex name m)

/-! ## The rebuild scan (`RebuildIndex` / `rebuildIndexInternal`)

The store root is modelled as a file tree.  A directory listing is encoded by
the `dnil`/`dcons` constructors, entries kept in the order `os.ReadDir`
returns them (sorted by name); a leaf is either a record file (which
`ReadObject` decodes successfully) or any other file — the stat file or an
index file — whose bytes do not decode as a record. -/

inductive FNode where
  | recf (e : Entity)
  | raw
  | dnil
  | dcons (name : String) (child : FNode) (rest : FNode)
deriving DecidableEq, Repr

/-- `rebuildIndexInternal` for one field over one directory listing: walk the
entries in order; recurse into subdirectories discarding their outcome (the
source ignores the recursive call's return value); decode each file as a
record, appending an index entry for it — a file that fails to decode makes
the walk return that error at once, abandoning the rest of the listing.  The
boolean records whether the walk stopped at a file it could not decode. -/
def scanDir (field : String) (includes : List String) : FNode → IndexMap → IndexMap × Bool
  | .recf _, m => (m, false)
  | .raw, m => (m, false)
  | .dnil, m => (m, false)
  | .dcons _ child rest, m =>
    match child with
    | .recf e =>
      scanDir field includes rest
        (m.setBucket (e.GetValue field)
          (m.getBucket (e.GetValue field) ++ [createIndexEntry e field includes]))
    | .raw => (m, true)
    | sub => scanDir field includes rest (scanDir field includes sub m).fst

/-- `fileIndex.RebuildIndex`: clear the field's in-memory index and refill it
by the scan; the scan's error is discarded (the source drops
`rebuildIndexInternal`'s return value and returns `nil`). -/
def RebuildIndex (fi : FileIndexState) (ic : FileIndexConfig) (root : FNode) :
    FileIndexState :=
  fi.setIndex ic.field (scanDir ic.field ic.includes root ([] : IndexMap)).fst

/-- One iteration of `fileIndex.Init` for a configured field.  Absent file:
create it, rebuild from the scan, then write the rebuilt map's lines into it.
Present file: load it, falling back to a rebuild exactly when loading reports
a structurally invalid file; any other load error propagates. -/
def initField (fi : FileIndexState) (ic : FileIndexConfig)
    (file : Option (Except DBError (List (List String)))) (root : FNode) :
    Except DBError FileIndexState :=
  match file with
  | none =>
    let fi1 := RebuildIndex fi ic root
    .ok (fi1.setFile ic.field (linesOfMap (fi1.getIndex ic.field) ic.includes))
  | some readRes =>
    match fi.LoadIndex ic.field readRes with
    | .ok fi1 => .ok fi1
    | .error er =>
      match er with
      | .invalidIndexFile => .ok (RebuildIndex fi ic root)
      | other => .error other

/-! ## Association-list (Go map) lemmas -/

theorem find?_assign_self [BEq κ] [LawfulBEq κ] (l : List (κ × α)) (k : κ) (v : α) :
    (mapAssign l k v).find? (fun p => p.fst == k) = some (k, v) := by
  unfold mapAssign
  by_cases h : l.any (fun p => p.fst == k) = true
  · rw [if_pos h]
    induction l with
    | nil => simp at h
    | cons p t ih =>
      by_cases hp : (p.fst == k) = true
      · simp [List.find?_cons, hp]
      · simp only [List.any_cons, hp, Bool.false_or] at h
        simp [List.find?_cons, hp, ih h]
  · rw [if_neg h]
    rw [List.find?_append]
    have hnone : l.find? (fun p => p.fst == k) = none := by
      rw [List.find?_eq_none]
      intro x hx
      simp only [Bool.not_eq_true]
      rcases Bool.eq_false_or_eq_true (x.fst == k) with ht | hf
      · exact absurd (List.any_eq_true.mpr ⟨x, hx, ht⟩) h
      · exact hf
    simp [hnone, List.find?_cons]

theorem mapRead_assign_self [BEq κ] [LawfulBEq κ] (l : List (κ × α)) (k : κ) (v d : α) :
    mapRead (mapAssign l k v) k d = v := by
  unfold mapRead
  rw [find?_assign_self]

theorem find?_assign_ne [BEq κ] [LawfulBEq κ] (l : List (κ × α)) (k k2 : κ) (v : α)
    (h : k2 ≠ k) :
    (mapAssign l k v).find? (fun p => p.fst == k2) = l.find? (fun p => p.fst == k2) := by
  have hkv : ((k, v).fst == k2) = false := by
    simp only [beq_eq_false_iff_ne]
    exact fun hh => h hh.symm
  unfold mapAssign
  by_cases ha : l.any (fun p => p.fst == k) = true
  · rw [if_pos ha]
    clear ha
    induction l with
    | nil => simp
    | cons p t ih =>
      by_cases hp : (p.fst == k) = true
      · have hpk : p.fst = k := eq_of_beq hp
        have h2 : (p.fst == k2) = false := by
          rw [hpk]
          simp only [beq_eq_false_iff_ne]
          exact fun hh => h hh.symm
        simp [List.find?_cons, hp, h2, hkv, ih]
      · simp only [List.map_cons, if_neg hp, List.find?_cons]
        by_cases h2 : (p.fst == k2) = true
        · simp [h2]
        · simp [h2, ih]
  · rw [if_neg ha]
    rw [List.find?_append]
    simp [List.find?_cons, hkv]

theorem mapRead_assign_ne [BEq κ] [LawfulBEq κ] (l : List (κ × α)) (k k2 : κ) (v : α)
    (d : α) (h : k2 ≠ k) :
    mapRead (mapAssign l k v) k2 d = mapRead l k2 d := by
  unfold mapRead
  rw [find?_assign_ne l k k2 v h]

/-! ## C3: object path sharding -/

/-- The path the sharding description of the specification would produce for
`id ≥ 1000`: the file `<id>.dat` inside the nested shard directories. -/
def shardedSpecPath (root : String) (id : Nat) : String :=
  root ++ "/" ++ String.intercalate "/" (shardNums (id / 1000) ++ [natStr id ++ ".dat"])

/-- C3 (code bug evidence): for `id < 1000` the computed path is the flat
`<root>/<id>.dat`, but for `id = 1000` the source computes
`root/11000.dat` — the shard digit is glued onto the file name because the
expression `path + "/" + strings.Join(nums, "/") + strconv.Itoa(id) + ".dat"`
has no separator between the joined segments and the name — instead of the
`root/1/1000.dat` the sharding description implies (and whose directory
`root/1` the same loop creates via `CreateDir`). -/
theorem getObjectPath_shard_digits_glued :
    GetObjectPath "root" 123 = "root/123.dat" ∧
    GetObjectPath "root" 1000 = "root/11000.dat" ∧
    shardedSpecPath "root" 1000 = "root/1/1000.dat" ∧
    GetObjectPath "root" 1000 ≠ shardedSpecPath "root" 1000 ∧
    GetObjectPath "root" 12345 = "root/2/112345.dat" := by
  refine ⟨by decide, by decide, by decide, by decide, by decide⟩

/-- Fuel irrelevance for `toDecAux`: any fuel above the argument suffices. -/
theorem toDecAux_fuel (n : Nat) : ∀ f g, n < f → n < g → toDecAux f n = toDecAux g n := by
  induction n using Nat.strong_induction_on with
  | _ n ih =>
    intro f g hf hg
    match f, g with
    | f + 1, g + 1 =>
      by_cases h10 : n < 10
      · simp [toDecAux, h10]
      · have hdiv : n / 10 < n := Nat.div_lt_self (by omega) (by decide)
        simp only [toDecAux, if_neg h10]
        rw [ih (n / 10) hdiv f g (by omega) (by omega)]

/-- The recurrence `natStr` satisfies (matching the Go digit loop). -/
theorem natStr_unfold (n : Nat) :
    (natStr n).data =
      if n < 10 then [Nat.digitChar n]
      else (natStr (n / 10)).data ++ [Nat.digitChar (n % 10)] := by
  show toDecAux (n + 1) n = _
  by_cases h10 : n < 10
  · simp [toDecAux, h10]
  · have hdiv : n / 10 < n := Nat.div_lt_self (by omega) (by decide)
    simp only [toDecAux, if_neg h10]
    rw [toDecAux_fuel (n / 10) n (n / 10 + 1) hdiv (by omega)]
    rfl

/-- The recurrence `shardNums` satisfies (matching the Go sharding loop). -/
theorem shardNums_unfold (q : Nat) :
    shardNums q =
      if q = 0 then []
      else (if q % 10 > 0 then [natStr (q % 10)] else []) ++ shardNums (q / 10) := by
  show shardAux (q + 1) q = _
  by_cases h0 : q = 0
  · simp [shardAux, h0]
  · have hdiv : q / 10 < q := Nat.div_lt_self (by omega) (by decide)
    simp only [shardAux, if_neg h0]
    have : ∀ f g q2, q2 < f → q2 < g → shardAux f q2 = shardAux g q2 := by
      intro f g q2
      induction q2 using Nat.strong_induction_on generalizing f g with
      | _ q2 ih =>
        intro hf hg
        match f, g with
        | f + 1, g + 1 =>
          by_cases hz : q2 = 0
          · simp [shardAux, hz]
          · have hd : q2 / 10 < q2 := Nat.div_lt_self (by omega) (by decide)
            simp only [shardAux, if_neg hz]
            rw [ih (q2 / 10) hd f g (by omega) (by omega)]
    rw [this q (q / 10 + 1) (q / 10) hdiv (by omega)]
    rfl

/-! ## C5: ledger bootstrap from the Index Engine -/

/-- The running-maximum fold of `FindMaxIdAndCount` dominates its start value
and every entry id it passes over. -/
theorem foldlMax_bounds (l : List IndexEntry) (a : Nat) :
    a ≤ l.foldl (fun mx ent => if ent.id > mx then ent.id else mx) a ∧
    ∀ ent ∈ l, ent.id ≤ l.foldl (fun mx ent => if ent.id > mx then ent.id else mx) a := by
  induction l generalizing a with
  | nil => simp
  | cons e t ih =>
    have step : a ≤ (if e.id > a then e.id else a) ∧ e.id ≤ (if e.id > a then e.id else a) := by
      split <;> omega
    refine ⟨le_trans step.1 (ih _).1, ?_⟩
    intro ent hent
    rcases List.mem_cons.mp hent with rfl | hmem
    · exact le_trans step.2 (ih _).1
    · exact (ih _).2 ent hmem

/-- C5: with the stat file absent, `Init` derives the ledger state from the
Index Engine — `next_id` is one plus the maximum identifier observed in the
scanned index data (so strictly above every observed id) and `count` is the
observed entry count — and persists the derived pair; with the file present,
both integers are loaded from it. -/
theorem statInit_derives_from_index (fi : FileIndexState) (s : LedgerState) :
    (s.file = none →
      (s.initDerive fi).mem.nextID = fi.FindMaxIdAndCount.fst + 1 ∧
      (s.initDerive fi).mem.count = (fi.FindMaxIdAndCount.snd : Int) ∧
      (s.initDerive fi).file =
        some ((s.initDerive fi).mem.nextID, (s.initDerive fi).mem.count) ∧
      ∀ p ∈ fi.indexes.head?.toList,
        fi.FindMaxIdAndCount.snd = p.snd.allEntries.length ∧
        ∀ ent ∈ p.snd.allEntries, ent.id < (s.initDerive fi).mem.nextID) ∧
    (∀ n c, s.file = some (n, c) →
      (s.initDerive fi).mem.nextID = n ∧ (s.initDerive fi).mem.count = c ∧
      (s.initDerive fi).file = s.file) := by
  constructor
  · intro hnone
    simp only [LedgerState.initDerive, hnone, LedgerState.save]
    refine ⟨trivial, trivial, trivial, ?_⟩
    intro p hp
    cases hhead : fi.indexes.head? with
    | none => simp [hhead] at hp
    | some q =>
      simp only [hhead, Option.toList_some, List.mem_singleton] at hp
      subst hp
      constructor
      · simp [FileIndexState.FindMaxIdAndCount, hhead]
      · intro ent hent
        have := (foldlMax_bounds p.snd.allEntries 0).2 ent hent
        simp only [FileIndexState.FindMaxIdAndCount, hhead]
        omega
  · intro n c hsome
    simp [LedgerState.initDerive, hsome, LedgerState.load]

/-- Witness for C5 at a concrete index state holding ids 5 and 2 (derived
`next_id` is 6, derived count 2, pair persisted) and a concrete present file. -/
theorem statInit_derives_from_index_witness :
    ((newFileStat none).initDerive
        { indexConfigs := [{ unique := false, field := "Name", includes := [] }],
          indexes := [("Name",
            [("a", [{ value := "a", id := 5, others := [] }]),
             ("b", [{ value := "b", id := 2, others := [] }])])],
          idxFiles := [] }).mem.nextID = 5 + 1 ∧
    ((newFileStat (some (9, 4))).initDerive
        { indexConfigs := [], indexes := [], idxFiles := [] }).mem.nextID = 9 := by
  constructor
  · exact ((statInit_derives_from_index _ (newFileStat none)).1 rfl).1
  · exact ((statInit_derives_from_index _ (newFileStat (some (9, 4)))).2 9 4 rfl).1

/-! ## C9: insert / find round trip -/

/-- C9: a successful `Insert` returns the record with the assigned identifier
substituted, and `Find` on that identifier returns exactly that record. -/
theorem insert_find_roundtrip (s : DBState) (e : Entity) (s1 : DBState) (r : Entity)
    (h : s.Insert e = (s1, .ok r)) :
    r = e.SetID (s.stat.GetNextID false).fst ∧ s1.Find r.GetID = .ok r := by
  unfold DBState.Insert at h
  dsimp only at h
  cases hins : s.index.Insert (e.SetID (s.stat.GetNextID false).fst) with
  | error er => rw [hins] at h; simp at h
  | ok fi1 =>
    rw [hins] at h
    simp only [Prod.mk.injEq, GoResult.ok.injEq] at h
    obtain ⟨hs1, hr⟩ := h
    subst hr
    refine ⟨rfl, ?_⟩
    rw [← hs1]
    simp only [DBState.Find, writeObject]
    rw [find?_assign_self]

/-! ## Concrete sample store (used by witnesses) -/

/-- Unique index on `Name`, as in the repository's test. -/
def cfgName : FileIndexConfig := { unique := true, field := "Name", includes := [] }

/-- Non-unique index on `Age` denormalizing `Name`, as in §8 of the design. -/
def cfgAge : FileIndexConfig := { unique := false, field := "Age", includes := ["Name"] }

/-- A freshly initialized empty store over the two sample indexes. -/
def db0 : DBState :=
  { stat := { mem := { nextID := 1, count := 0 }, file := some (1, 0) },
    index := { indexConfigs := [cfgName, cfgAge],
               indexes := [("Name", []), ("Age", [])],
               idxFiles := [("Name", []), ("Age", [])] },
    objects := [] }

/-- Alice, aged 20, before insertion (identifier unset). -/
def alice : Entity := { id := 0, fields := [("Name", "Alice"), ("Age", "20")] }

/-- Bob, aged 30, before insertion. -/
def bob : Entity := { id := 0, fields := [("Name", "Bob"), ("Age", "30")] }

/-- Peter, aged 20, before insertion. -/
def peter : Entity := { id := 0, fields := [("Name", "Peter"), ("Age", "20")] }

/-- Witness for C9: inserting Alice into the fresh store assigns identifier 1
and `Find 1` returns Alice with that identifier. -/
theorem insert_find_roundtrip_witness :
    alice.SetID 1 = alice.SetID (db0.stat.GetNextID false).fst ∧
    ((db0.Insert alice).fst).Find (alice.SetID 1).GetID = .ok (alice.SetID 1) := by
  exact insert_find_roundtrip db0 alice (db0.Insert alice).fst (alice.SetID 1) (by decide)

/-! ## C8: `InvalidIndexFile` is handled by rebuild and never escapes `Init` -/

/-- `fileIndex.Init`: the per-field loop over the configured indexes; `files`
gives each field's on-disk index file state (`none` = absent), `root` the
directory tree the rebuild scan reads.  (Within one real `Init` call an
earlier iteration may create its empty index file before a later field
rebuilds; the tree argument abstracts the directory state seen by a scan, and
no theorem below depends on its content.) -/
def FileIndexState.Init (fi : FileIndexState)
    (files : String → Option (Except DBError (List (List String)))) (root : FNode) :
    Except DBError FileIndexState :=
  fi.indexConfigs.foldlM (fun s ic => initField s ic (files ic.field) root) fi

/-- A single `Init` iteration never returns the invalid-index-file error:
the condition triggers a rebuild instead. -/
theorem initField_no_invalid (fi : FileIndexState) (ic : FileIndexConfig)
    (file : Option (Except DBError (List (List String)))) (root : FNode) (er : DBError)
    (h : initField fi ic file root = .error er) : er ≠ .invalidIndexFile := by
  unfold initField at h
  cases file with
  | none => simp at h
  | some readRes =>
    dsimp only at h
    cases hload : fi.LoadIndex ic.field readRes with
    | ok fi1 => rw [hload] at h; simp at h
    | error er2 =>
      rw [hload] at h
      cases er2 <;> simp_all <;> intro hh <;> simp [hh] at h

/-- C8: during Index-Engine `Init` over a present index file, a load that
detects a structurally invalid file makes that field fall back to the rebuilt
index; the invalid-index-file error kind never escapes `Init` (over any field
of the loop); any other load error propagates unchanged. -/
theorem init_handles_invalid_index_file (fi : FileIndexState)
    (files : String → Option (Except DBError (List (List String)))) (root : FNode) :
    (∀ er, fi.Init files root = .error er → er ≠ .invalidIndexFile) ∧
    (∀ fi2 ic readRes,
      fi2.LoadIndex ic.field readRes = .error .invalidIndexFile →
      initField fi2 ic (some readRes) root = .ok (RebuildIndex fi2 ic root)) ∧
    (∀ fi2 ic readRes er, er ≠ .invalidIndexFile →
      fi2.LoadIndex ic.field readRes = .error er →
      initField fi2 ic (some readRes) root = .error er) := by
  refine ⟨?_, ?_, ?_⟩
  · unfold FileIndexState.Init
    generalize fi.indexConfigs = cfgs
    induction cfgs generalizing fi with
    | nil => intro er h; simp [List.foldlM, pure, Except.pure] at h
    | cons ic rest ih =>
      intro er h
      simp only [List.foldlM] at h
      cases hstep : initField fi ic (files ic.field) root with
      | error er2 =>
        rw [hstep] at h
        simp only [bind, Except.bind, Except.error.injEq] at h
        subst h
        exact initField_no_invalid fi ic (files ic.field) root _ hstep
      | ok s1 =>
        rw [hstep] at h
        simp only [bind, Except.bind] at h
        exact ih s1 er h
  · intro fi2 ic readRes hload
    unfold initField
    dsimp only
    rw [hload]
  · intro fi2 ic readRes er hne hload
    unfold initField
    dsimp only
    rw [hload]
    cases er with
    | invalidIndexFile => exact absurd rfl hne
    | _ => rfl

/-- Witness for C8: a one-line file with a wrong column count makes the load
report an invalid index file, and `initField` answers with the rebuilt index
(here over an empty directory); a read failure propagates unchanged. -/
theorem init_handles_invalid_index_file_witness :
    initField db0.index cfgName (some (.ok [["a", "b", "c"]])) .dnil =
      .ok (RebuildIndex db0.index cfgName .dnil) ∧
    initField db0.index cfgName (some (.error .ioError)) .dnil = .error .ioError := by
  constructor
  · exact (init_handles_invalid_index_file db0.index (fun _ => none) .dnil).2.1
      db0.index cfgName (.ok [["a", "b", "c"]]) (by decide)
  · exact (init_handles_invalid_index_file db0.index (fun _ => none) .dnil).2.2
      db0.index cfgName (.error .ioError) .ioError (by decide) (by decide)

/-! ## C4: identifier monotonicity across restarts -/

/-- The ledger-level operations a caller (or a process restart) can perform. -/
inductive LedgerOp where
  | issue
  | peekOp
  | addCountOp (c : Int)
  | restart
deriving DecidableEq, Repr

/-- One ledger operation: `issue` is `GetNextID(false)` (its result collected),
`peekOp` is `GetNextID(true)`, `restart` models a process restart — a fresh
`NewFileStat` over the surviving stat file, then `Init`. -/
def ledgerStep (s : LedgerState) : LedgerOp → LedgerState × List Nat
  | .issue => ((s.GetNextID false).snd, [(s.GetNextID false).fst])
  | .peekOp => (s, [])
  | .addCountOp c => (s.AddCount c, [])
  | .restart => ((newFileStat s.file).initSimple, [])

/-- Run a sequence of ledger operations, collecting every issued identifier. -/
def ledgerRun (s : LedgerState) : List LedgerOp → LedgerState × List Nat
  | [] => (s, [])
  | op :: rest =>
    ((ledgerRun (ledgerStep s op).fst rest).fst,
     (ledgerStep s op).snd ++ (ledgerRun (ledgerStep s op).fst rest).snd)

/-- The stat file mirrors the in-memory pair (true after every operation,
since each mutation persists synchronously). -/
def GoodLedger (s : LedgerState) : Prop :=
  s.file = some (s.mem.nextID, s.mem.count)

/-- The state right after `Init` on a store without a stat file. -/
def ledgerInit0 : LedgerState := (newFileStat none).initSimple

theorem ledgerRun_invariant (ops : List LedgerOp) : ∀ s : LedgerState, GoodLedger s →
    GoodLedger (ledgerRun s ops).fst ∧
    s.mem.nextID ≤ (ledgerRun s ops).fst.mem.nextID ∧
    (∀ i ∈ (ledgerRun s ops).snd,
      s.mem.nextID ≤ i ∧ i < (ledgerRun s ops).fst.mem.nextID) ∧
    List.Pairwise (· < ·) (ledgerRun s ops).snd := by
  induction ops with
  | nil => intro s hs; simp [ledgerRun, hs]
  | cons op rest ih =>
    intro s hs
    have hstep : GoodLedger (ledgerStep s op).fst ∧
        s.mem.nextID ≤ (ledgerStep s op).fst.mem.nextID ∧
        ∀ i ∈ (ledgerStep s op).snd,
          i = s.mem.nextID ∧ i < (ledgerStep s op).fst.mem.nextID := by
      cases op with
      | issue =>
        refine ⟨rfl, Nat.le_succ _, ?_⟩
        intro i hi
        have hiq : i = s.mem.nextID := List.mem_singleton.mp hi
        subst hiq
        exact ⟨rfl, Nat.lt_succ_self _⟩
      | peekOp => exact ⟨hs, le_refl _, by simp [ledgerStep]⟩
      | addCountOp c => exact ⟨rfl, le_refl _, by simp [ledgerStep]⟩
      | restart =>
        have hs2 : s.file = some (s.mem.nextID, s.mem.count) := hs
        refine ⟨?_, ?_, by simp [ledgerStep]⟩
        · simp [ledgerStep, newFileStat, LedgerState.initSimple, hs2, LedgerState.load,
            GoodLedger]
        · simp [ledgerStep, newFileStat, LedgerState.initSimple, hs2, LedgerState.load]
    obtain ⟨hg, hle, hout⟩ := hstep
    obtain ⟨ihg, ihle, ihbound, ihpw⟩ := ih (ledgerStep s op).fst hg
    simp only [ledgerRun]
    refine ⟨ihg, le_trans hle ihle, ?_, ?_⟩
    · intro i hi
      rcases List.mem_append.mp hi with h1 | h2
      · obtain ⟨hiq, hlt⟩ := hout i h1
        exact ⟨le_of_eq hiq.symm, lt_of_lt_of_le hlt ihle⟩
      · obtain ⟨hge, hlt⟩ := ihbound i h2
        exact ⟨le_trans hle hge, hlt⟩
    · rw [List.pairwise_append]
      refine ⟨?_, ihpw, ?_⟩
      · cases op <;> simp [ledgerStep]
      · intro a ha b hb
        obtain ⟨haq, halt⟩ := hout a ha
        obtain ⟨hbge, _⟩ := ihbound b hb
        omega

/-- State composition of `ledgerRun` over concatenated operation lists. -/
theorem ledgerRun_append (l1 l2 : List LedgerOp) : ∀ s,
    (ledgerRun s (l1 ++ l2)).fst = (ledgerRun (ledgerRun s l1).fst l2).fst := by
  induction l1 with
  | nil => intro s; simp [ledgerRun]
  | cons op rest ih => intro s; simp [ledgerRun, ih]

/-- C4: starting from a freshly initialized store, the identifiers issued by
non-peek `GetNextID` along any operation sequence — restarts that reload the
persisted ledger state included — are pairwise strictly increasing (hence
never repeat), and a restart leaves the peeked next identifier unchanged. -/
theorem ledger_ids_strictly_increasing (ops : List LedgerOp) :
    List.Pairwise (· < ·) (ledgerRun ledgerInit0 ops).snd ∧
    ((ledgerRun ledgerInit0 (ops ++ [.restart])).fst.GetNextID true).fst =
      ((ledgerRun ledgerInit0 ops).fst.GetNextID true).fst := by
  have hg0 : GoodLedger ledgerInit0 := by
    simp [ledgerInit0, newFileStat, LedgerState.initSimple, LedgerState.save, GoodLedger]
  obtain ⟨hg, _, _, hpw⟩ := ledgerRun_invariant ops ledgerInit0 hg0
  have hg2 : (ledgerRun ledgerInit0 ops).fst.file =
      some ((ledgerRun ledgerInit0 ops).fst.mem.nextID,
            (ledgerRun ledgerInit0 ops).fst.mem.count) := hg
  refine ⟨hpw, ?_⟩
  rw [ledgerRun_append]
  simp [ledgerRun, ledgerStep, LedgerState.GetNextID, newFileStat,
    LedgerState.initSimple, hg2, LedgerState.load]

/-! ## Per-field loop lemmas (`fieldStep` / `goFold`) -/

theorem setIndex_getIndex_self (fi : FileIndexState) (f : String) (m : IndexMap) :
    (fi.setIndex f m).getIndex f = m :=
  mapRead_assign_self fi.indexes f m []

theorem setIndex_getIndex_ne (fi : FileIndexState) (f f2 : String) (m : IndexMap)
    (h : f2 ≠ f) : (fi.setIndex f m).getIndex f2 = fi.getIndex f2 :=
  mapRead_assign_ne fi.indexes f f2 m [] h

theorem save_getIndex (fi : FileIndexState) (name f : String) :
    (fi.Save name).getIndex f = fi.getIndex f := rfl

/-- `fieldStep` never returns a Go error. -/
theorem fieldStep_no_err (fMap : FileIndexConfig → IndexMap → Option (IndexMap × Bool))
    (s : FileIndexState) (ic : FileIndexConfig) (er : DBError) :
    fieldStep fMap s ic ≠ .err er := by
  unfold fieldStep
  cases fMap ic (s.getIndex ic.field) with
  | none => simp
  | some p =>
    rcases p with ⟨m, changed⟩
    cases changed <;> simp

/-- A successful `fieldStep` leaves every other field's in-memory index alone. -/
theorem fieldStep_ok_ne (fMap : FileIndexConfig → IndexMap → Option (IndexMap × Bool))
    (s s2 : FileIndexState) (ic : FileIndexConfig) (f : String)
    (h : fieldStep fMap s ic = .ok s2) (hf : f ≠ ic.field) :
    s2.getIndex f = s.getIndex f := by
  unfold fieldStep at h
  cases hm : fMap ic (s.getIndex ic.field) with
  | none => rw [hm] at h; simp at h
  | some p =>
    rcases p with ⟨m, changed⟩
    rw [hm] at h
    cases changed with
    | false => simp at h; rw [← h]
    | true =>
      simp at h
      rw [← h, save_getIndex, setIndex_getIndex_ne _ _ _ _ hf]

/-- A successful `fieldStep` stores exactly the map the field effect computes
(provided an unchanged-flag effect returns its input unchanged). -/
theorem fieldStep_ok_self (fMap : FileIndexConfig → IndexMap → Option (IndexMap × Bool))
    (hid : ∀ ic m m2, fMap ic m = some (m2, false) → m2 = m)
    (s s2 : FileIndexState) (ic : FileIndexConfig)
    (h : fieldStep fMap s ic = .ok s2) :
    ∃ ch, fMap ic (s.getIndex ic.field) = some (s2.getIndex ic.field, ch) := by
  unfold fieldStep at h
  cases hm : fMap ic (s.getIndex ic.field) with
  | none => rw [hm] at h; simp at h
  | some p =>
    rcases p with ⟨m, changed⟩
    rw [hm] at h
    cases changed with
    | false =>
      simp at h
      have hm2 := hid ic _ _ hm
      refine ⟨false, ?_⟩
      rw [← h, ← hm2]
    | true =>
      simp at h
      refine ⟨true, ?_⟩
      rw [← h, save_getIndex, setIndex_getIndex_self]

theorem fieldStep_panic_iff (fMap : FileIndexConfig → IndexMap → Option (IndexMap × Bool))
    (s : FileIndexState) (ic : FileIndexConfig) :
    fieldStep fMap s ic = .panicked ↔ fMap ic (s.getIndex ic.field) = none := by
  unfold fieldStep
  cases hm : fMap ic (s.getIndex ic.field) with
  | none => simp
  | some p =>
    rcases p with ⟨m, changed⟩
    cases changed <;> simp

/-- Over configurations with pairwise distinct fields, a successful mutation
loop applies each field's effect to that field's original map, and leaves
unconfigured fields untouched. -/
theorem goFold_fieldStep_ok (fMap : FileIndexConfig → IndexMap → Option (IndexMap × Bool))
    (hid : ∀ ic m m2, fMap ic m = some (m2, false) → m2 = m) :
    ∀ (cfgs : List FileIndexConfig) (s sf : FileIndexState),
    (cfgs.map (fun ic => ic.field)).Nodup →
    goFold (fieldStep fMap) s cfgs = .ok sf →
    (∀ ic ∈ cfgs, ∃ ch, fMap ic (s.getIndex ic.field) = some (sf.getIndex ic.field, ch)) ∧
    (∀ f, f ∉ cfgs.map (fun ic => ic.field) → sf.getIndex f = s.getIndex f) := by
  intro cfgs
  induction cfgs with
  | nil =>
    intro s sf _ h
    simp only [goFold, GoResult.ok.injEq] at h
    subst h
    exact ⟨by simp, fun f _ => rfl⟩
  | cons ic rest ih =>
    intro s sf hnd h
    simp only [goFold] at h
    cases hstep : fieldStep fMap s ic with
    | err er => rw [hstep] at h; simp at h
    | panicked => rw [hstep] at h; simp at h
    | ok s1 =>
      rw [hstep] at h
      simp only [List.map_cons, List.nodup_cons] at hnd
      obtain ⟨hni, hnd2⟩ := hnd
      obtain ⟨ihown, ihother⟩ := ih s1 sf hnd2 h
      constructor
      · intro ic2 hic2
        rcases List.mem_cons.mp hic2 with rfl | hmem
        · obtain ⟨ch, hch⟩ := fieldStep_ok_self fMap hid s s1 ic2 hstep
          refine ⟨ch, ?_⟩
          rw [ihother ic2.field hni]
          exact hch
        · obtain ⟨ch, hch⟩ := ihown ic2 hmem
          refine ⟨ch, ?_⟩
          rw [← fieldStep_ok_ne fMap s s1 ic ic2.field hstep]
          · exact hch
          · intro hq
            exact hni (hq ▸ List.mem_map.mpr ⟨ic2, hmem, rfl⟩)
      · intro f hf
        simp only [List.map_cons, List.mem_cons, not_or] at hf
        obtain ⟨hf1, hf2⟩ := hf
        rw [ihother f hf2, fieldStep_ok_ne fMap s s1 ic f hstep hf1]

/-- Over configurations with pairwise distinct fields, the mutation loop
panics exactly when some configured field's effect panics on that field's
original map. -/
theorem goFold_fieldStep_panicked_iff
    (fMap : FileIndexConfig → IndexMap → Option (IndexMap × Bool)) :
    ∀ (cfgs : List FileIndexConfig) (s : FileIndexState),
    (cfgs.map (fun ic => ic.field)).Nodup →
    (goFold (fieldStep fMap) s cfgs = .panicked ↔
     ∃ ic ∈ cfgs, fMap ic (s.getIndex ic.field) = none) := by
  intro cfgs
  induction cfgs with
  | nil => intro s _; simp [goFold]
  | cons ic rest ih =>
    intro s hnd
    simp only [List.map_cons, List.nodup_cons] at hnd
    obtain ⟨hni, hnd2⟩ := hnd
    simp only [goFold]
    cases hstep : fieldStep fMap s ic with
    | err er => exact absurd hstep (fieldStep_no_err fMap s ic er)
    | panicked =>
      simp only
      constructor
      · intro _
        exact ⟨ic, List.mem_cons_self ic rest, (fieldStep_panic_iff fMap s ic).mp hstep⟩
      · intro _; trivial
    | ok s1 =>
      simp only
      rw [ih s1 hnd2]
      constructor
      · rintro ⟨ic2, hmem, hnone⟩
        refine ⟨ic2, List.mem_cons_of_mem ic hmem, ?_⟩
        rw [← fieldStep_ok_ne fMap s s1 ic ic2.field hstep]
        · exact hnone
        · intro hq
          exact hni (hq ▸ List.mem_map.mpr ⟨ic2, hmem, rfl⟩)
      · rintro ⟨ic2, hmem, hnone⟩
        rcases List.mem_cons.mp hmem with rfl | hmem2
        · exact absurd ((fieldStep_panic_iff fMap s ic2).mpr hnone)
            (by rw [hstep]; simp)
        · refine ⟨ic2, hmem2, ?_⟩
          rw [fieldStep_ok_ne fMap s s1 ic ic2.field hstep]
          · exact hnone
          · intro hq
            exact hni (hq ▸ List.mem_map.mpr ⟨ic2, hmem2, rfl⟩)

/-! ## C10: missing index entries make Delete/Update panic -/

/-- `deleteFieldMap` panics exactly when no entry of the record's bucket
carries its identifier. -/
theorem deleteFieldMap_none_iff (prev : Entity) (ic : FileIndexConfig) (m : IndexMap) :
    deleteFieldMap prev ic m = none ↔
    ∀ ent ∈ m.getBucket (prev.GetValue ic.field), ent.id ≠ prev.GetID := by
  have hstep : deleteFieldMap prev ic m = none ↔
      (m.getBucket (prev.GetValue ic.field)).findIdx?
        (fun item => prev.GetID == item.id) = none := by
    unfold deleteFieldMap
    cases hidx : (m.getBucket (prev.GetValue ic.field)).findIdx?
        (fun item => prev.GetID == item.id) with
    | none => simp [hidx]
    | some ci => simp [hidx]
  rw [hstep, List.findIdx?_eq_none_iff]
  constructor
  · intro h ent hent hq
    have h2 := h ent hent
    simp only [beq_eq_false_iff_ne] at h2
    exact h2 hq.symm
  · intro h x hx
    simp only [beq_eq_false_iff_ne]
    exact fun hq => h x hx hq.symm

/-- A `findIdx?` search for a record's identifier comes back empty exactly
when no entry of the bucket carries that identifier. -/
theorem findIdxNone_iff_noEntry (b : List IndexEntry) (id0 : Nat) :
    b.findIdx? (fun item => id0 == item.id) = none ↔ ∀ ent ∈ b, ent.id ≠ id0 := by
  rw [List.findIdx?_eq_none_iff]
  constructor
  · intro h ent hent hq
    have h2 := h ent hent
    simp only [beq_eq_false_iff_ne] at h2
    exact h2 hq.symm
  · intro h x hx
    simp only [beq_eq_false_iff_ne]
    exact fun hq => h x hx hq.symm

/-- `updateFieldMap` panics exactly when the step must locate the record's
entry — the indexed value changed, or it is unchanged but some include column
changed — and no entry of the record's previous-value bucket carries its
identifier. -/
theorem updateFieldMap_none_iff (e prev : Entity) (ic : FileIndexConfig) (m : IndexMap) :
    updateFieldMap e prev ic m = none ↔
    ((e.GetValue ic.field ≠ prev.GetValue ic.field ∨
      ic.includes.filter (fun f => e.GetValue f != prev.GetValue f) ≠ []) ∧
     ∀ ent ∈ m.getBucket (prev.GetValue ic.field), ent.id ≠ prev.GetID) := by
  unfold updateFieldMap
  by_cases heq : e.GetValue ic.field = prev.GetValue ic.field
  · rw [heq]
    simp only [beq_self_eq_true, if_true, ne_eq, not_true_eq_false, false_or]
    by_cases hch : (ic.includes.filter (fun f => e.GetValue f != prev.GetValue f)).isEmpty
    · rw [if_pos hch]
      rw [List.isEmpty_iff] at hch
      simp [hch]
    · rw [if_neg hch]
      rw [List.isEmpty_iff] at hch
      simp only [hch, not_false_eq_true, true_and]
      cases hidx : (m.getBucket (prev.GetValue ic.field)).findIdx?
          (fun item => prev.GetID == item.id) with
      | none =>
        simp only [hidx, true_iff]
        exact (findIdxNone_iff_noEntry _ _).mp hidx
      | some ei =>
        simp only [hidx]
        refine iff_of_false (by simp) ?_
        intro hall
        rw [(findIdxNone_iff_noEntry _ _).mpr hall] at hidx
        cases hidx
  · have hbeq : (e.GetValue ic.field == prev.GetValue ic.field) = false :=
      beq_eq_false_iff_ne.mpr heq
    simp only [hbeq, Bool.false_eq_true, if_false, ne_eq, heq, not_false_eq_true,
      true_or, true_and]
    cases hidx : (m.getBucket (prev.GetValue ic.field)).findIdx?
        (fun item => prev.GetID == item.id) with
    | none =>
      simp only [hidx, true_iff]
      exact (findIdxNone_iff_noEntry _ _).mp hidx
    | some ei =>
      simp only [hidx]
      refine iff_of_false (by simp) ?_
      intro hall
      rw [(findIdxNone_iff_noEntry _ _).mpr hall] at hidx
      cases hidx

/-- C10: with pairwise-distinct configured fields, `fileIndex.Delete` panics
(out-of-range slice after `slices.IndexFunc` returns `-1`) exactly when some
configured field's bucket for the record's value holds no entry with the
record's identifier, and — once its validation pre-pass passes —
`fileIndex.Update` panics exactly when some field whose step must locate the
record's entry (value changed, or an include column changed) lacks such an
entry; both are total only under the invariant that every live record has an
entry in every configured field's index. -/
theorem index_missing_entry_panics (fi : FileIndexState) (e prev : Entity)
    (hnodup : (fi.indexConfigs.map (fun ic => ic.field)).Nodup) :
    (fi.Delete prev = .panicked ↔
      ∃ ic ∈ fi.indexConfigs,
        ∀ ent ∈ (fi.getIndex ic.field).getBucket (prev.GetValue ic.field),
          ent.id ≠ prev.GetID) ∧
    (fi.indexConfigs.find? (fun ic =>
        (e.GetValue ic.field != prev.GetValue ic.field) && ic.unique &&
        !((fi.getIndex ic.field).getBucket (e.GetValue ic.field)).isEmpty) = none →
      (fi.Update e prev = .panicked ↔
        ∃ ic ∈ fi.indexConfigs,
          ((e.GetValue ic.field ≠ prev.GetValue ic.field ∨
            ic.includes.filter (fun f => e.GetValue f != prev.GetValue f) ≠ []) ∧
           ∀ ent ∈ (fi.getIndex ic.field).getBucket (prev.GetValue ic.field),
             ent.id ≠ prev.GetID))) := by
  constructor
  · unfold FileIndexState.Delete deleteConfigStep
    rw [goFold_fieldStep_panicked_iff _ fi.indexConfigs fi hnodup]
    refine exists_congr (fun ic => and_congr_right (fun _ => ?_))
    rw [show ∀ o : Option IndexMap, (Option.map (fun m2 => (m2, true)) o = none) = (o = none) by
      intro o; cases o <;> simp]
    exact deleteFieldMap_none_iff prev ic (fi.getIndex ic.field)
  · intro hval
    unfold FileIndexState.Update updateConfigStep
    rw [hval]
    rw [goFold_fieldStep_panicked_iff _ fi.indexConfigs fi hnodup]
    refine exists_congr (fun ic => and_congr_right (fun _ => ?_))
    exact updateFieldMap_none_iff e prev ic (fi.getIndex ic.field)

/-- Witness for C10: deleting a record whose identifier is in no bucket of
the (empty) sample index panics. -/
theorem index_missing_entry_panics_witness :
    db0.index.Delete { id := 7, fields := [("Name", "Ghost")] } = .panicked :=
  (index_missing_entry_panics db0.index alice
    { id := 7, fields := [("Name", "Ghost")] } (by decide)).1.mpr (by decide)

/-! ## C7: bucket order — insert appends, updates preserve or append -/

/-- Rewriting a field's `.idx` file leaves every in-memory map unchanged. -/
theorem setFile_getIndex (fi : FileIndexState) (f2 : String) (ls : List IndexLine)
    (f : String) : (fi.setFile f2 ls).getIndex f = fi.getIndex f := rfl

theorem insertConfigStep_getIndex_ne (e : Entity) (s : FileIndexState)
    (ic : FileIndexConfig) (f : String) (hf : f ≠ ic.field) :
    (insertConfigStep e s ic).getIndex f = s.getIndex f := by
  simp only [insertConfigStep]
  rw [setFile_getIndex, setIndex_getIndex_ne _ _ _ _ hf]

theorem insertConfigStep_getIndex_self (e : Entity) (s : FileIndexState)
    (ic : FileIndexConfig) :
    (insertConfigStep e s ic).getIndex ic.field =
      (s.getIndex ic.field).setBucket (e.GetValue ic.field)
        ((s.getIndex ic.field).getBucket (e.GetValue ic.field) ++
          [createIndexEntry e ic.field ic.includes]) := by
  simp only [insertConfigStep]
  rw [setFile_getIndex, setIndex_getIndex_self]

/-- The insert mutation loop, over configurations with distinct fields:
each configured field's bucket for the record's value gains exactly the new
entry, appended at the end; all other fields' maps are unchanged. -/
theorem insert_fold_getIndex (e : Entity) :
    ∀ (cfgs : List FileIndexConfig) (s : FileIndexState),
    (cfgs.map (fun x => x.field)).Nodup →
    (∀ ic ∈ cfgs,
      (List.foldl (insertConfigStep e) s cfgs).getIndex ic.field =
        (s.getIndex ic.field).setBucket (e.GetValue ic.field)
          ((s.getIndex ic.field).getBucket (e.GetValue ic.field) ++
            [createIndexEntry e ic.field ic.includes])) ∧
    (∀ f, f ∉ cfgs.map (fun x => x.field) →
      (List.foldl (insertConfigStep e) s cfgs).getIndex f = s.getIndex f) := by
  intro cfgs
  induction cfgs with
  | nil => intro s _; exact ⟨by simp, fun f _ => rfl⟩
  | cons ic rest ih =>
    intro s hnd
    simp only [List.map_cons, List.nodup_cons] at hnd
    obtain ⟨hni, hnd2⟩ := hnd
    obtain ⟨ihown, ihother⟩ := ih (insertConfigStep e s ic) hnd2
    simp only [List.foldl_cons]
    constructor
    · intro ic2 hic2
      rcases List.mem_cons.mp hic2 with rfl | hmem
      · rw [ihother ic2.field hni, insertConfigStep_getIndex_self]
      · have hne : ic2.field ≠ ic.field := by
          intro hq
          exact hni (hq ▸ List.mem_map.mpr ⟨ic2, hmem, rfl⟩)
        rw [ihown ic2 hmem, insertConfigStep_getIndex_ne e s ic ic2.field hne]
    · intro f hf
      simp only [List.map_cons, List.mem_cons, not_or] at hf
      rw [ihother f hf.2, insertConfigStep_getIndex_ne e s ic f hf.1]

/-- The in-place include-column refresh a same-value update applies to the
record's entry: each include field whose value changed is set to the new
record's value. -/
def refreshOthers (e prev : Entity) (ic : FileIndexConfig) (ent : IndexEntry) :
    IndexEntry :=
  IndexEntry.mk ent.value ent.id
    (List.foldl (fun o f => setStr o f (e.GetValue f)) ent.others
      (ic.includes.filter (fun f => e.GetValue f != prev.GetValue f)))

/-- Same-value update effect on the field's bucket: same length, entries at
other positions untouched, the entry at the found position keeps everything
but its include columns, which are refreshed from the new record. -/
theorem updateFieldMap_sameValue (e prev : Entity) (ic : FileIndexConfig) (m : IndexMap)
    (heq : e.GetValue ic.field = prev.GetValue ic.field)
    (k : Nat)
    (hk : ((m.getBucket (prev.GetValue ic.field)).findIdx?
        (fun item => prev.GetID == item.id)) = some k)
    (m2 : IndexMap) (ch : Bool)
    (h : updateFieldMap e prev ic m = some (m2, ch)) :
    (m2.getBucket (prev.GetValue ic.field)).length =
      (m.getBucket (prev.GetValue ic.field)).length ∧
    (∀ j, j ≠ k →
      (m2.getBucket (prev.GetValue ic.field)).get? j =
        (m.getBucket (prev.GetValue ic.field)).get? j) ∧
    (m2.getBucket (prev.GetValue ic.field)).get? k =
      ((m.getBucket (prev.GetValue ic.field)).get? k).map (refreshOthers e prev ic) := by
  unfold updateFieldMap at h
  rw [heq] at h
  simp only [beq_self_eq_true, if_true] at h
  by_cases hch : (ic.includes.filter (fun f => e.GetValue f != prev.GetValue f)).isEmpty
  · rw [if_pos hch] at h
    simp only [Option.some.injEq, Prod.mk.injEq] at h
    obtain ⟨hm2, _⟩ := h
    subst hm2
    rw [List.isEmpty_iff] at hch
    refine ⟨rfl, fun j _ => rfl, ?_⟩
    cases (m.getBucket (prev.GetValue ic.field)).get? k with
    | none => rfl
    | some ent => simp [refreshOthers, hch]
  · rw [if_neg hch] at h
    rw [hk] at h
    simp only [Option.some.injEq, Prod.mk.injEq] at h
    obtain ⟨hm2, _⟩ := h
    rw [← hm2]
    have hgb : ∀ (mm : IndexMap) v b, IndexMap.getBucket (mm.setBucket v b) v = b :=
      fun mm v b => mapRead_assign_self mm v b []
    rw [hgb]
    refine ⟨by simp, ?_, ?_⟩
    · intro j hj
      rw [List.get?_map, List.get?_enum]
      cases (m.getBucket (prev.GetValue ic.field)).get? j with
      | none => rfl
      | some ent => simp [hj]
    · rw [List.get?_map, List.get?_enum]
      cases (m.getBucket (prev.GetValue ic.field)).get? k with
      | none => rfl
      | some ent => simp [refreshOthers]

/-- Changed-value update effect: the old bucket loses exactly the entry at
the position found by the record's identifier, and the new bucket gains the
fresh entry appended at its end. -/
theorem updateFieldMap_changedValue (e prev : Entity) (ic : FileIndexConfig)
    (m : IndexMap)
    (hne : e.GetValue ic.field ≠ prev.GetValue ic.field)
    (k : Nat)
    (hk : ((m.getBucket (prev.GetValue ic.field)).findIdx?
        (fun item => prev.GetID == item.id)) = some k)
    (m2 : IndexMap) (ch : Bool)
    (h : updateFieldMap e prev ic m = some (m2, ch)) :
    m2.getBucket (prev.GetValue ic.field) =
      (m.getBucket (prev.GetValue ic.field)).eraseIdx k ∧
    m2.getBucket (e.GetValue ic.field) =
      m.getBucket (e.GetValue ic.field) ++ [createIndexEntry e ic.field ic.includes] := by
  unfold updateFieldMap at h
  dsimp only at h
  have hbeq : (e.GetValue ic.field == prev.GetValue ic.field) = false :=
    beq_eq_false_iff_ne.mpr hne
  rw [hbeq] at h
  simp only [Bool.false_eq_true, if_false] at h
  rw [hk] at h
  simp only [Option.some.injEq, Prod.mk.injEq] at h
  obtain ⟨hm2, _⟩ := h
  rw [← hm2]
  unfold IndexMap.setBucket IndexMap.getBucket
  constructor
  · rw [mapRead_assign_ne _ _ _ _ _ (fun hq => hne hq.symm)]
    exact mapRead_assign_self _ _ _ _
  · rw [mapRead_assign_self]
    rw [mapRead_assign_ne _ _ _ _ _ hne]

/-- An update step that reports nothing changed left the map untouched. -/
theorem updateFieldMap_false_id (e prev : Entity) (ic : FileIndexConfig) (m m2 : IndexMap)
    (h : updateFieldMap e prev ic m = some (m2, false)) : m2 = m := by
  unfold updateFieldMap at h
  dsimp only at h
  by_cases hbeq : (e.GetValue ic.field == prev.GetValue ic.field) = true
  · rw [if_pos hbeq] at h
    by_cases hch : (ic.includes.filter (fun f => e.GetValue f != prev.GetValue f)).isEmpty
    · rw [if_pos hch] at h
      simp only [Option.some.injEq, Prod.mk.injEq] at h
      exact h.1.symm
    · rw [if_neg hch] at h
      cases hidx : (m.getBucket (e.GetValue ic.field)).findIdx?
          (fun item => prev.GetID == item.id) with
      | none => rw [hidx] at h; cases h
      | some k => rw [hidx] at h; simp at h
  · rw [if_neg hbeq] at h
    cases hidx : (m.getBucket (prev.GetValue ic.field)).findIdx?
        (fun item => prev.GetID == item.id) with
    | none => rw [hidx] at h; cases h
    | some k => rw [hidx] at h; simp at h

/-- The delete loop always reports a change. -/
theorem deleteFieldMapFlag_false_id (prev : Entity) (ic : FileIndexConfig) (m m2 : IndexMap)
    (h : (deleteFieldMap prev ic m).map (fun mm => (mm, true)) = some (m2, false)) :
    m2 = m := by
  cases hd : deleteFieldMap prev ic m with
  | none => rw [hd] at h; cases h
  | some mm => rw [hd] at h; simp at h

/-- C7: bucket order is insertion order.  For any configured field (fields
pairwise distinct): a successful `Insert` appends the new entry at the end of
its value's bucket; a successful `Update` whose indexed value is unchanged
keeps the record's entry at its existing position (found by the record's id)
and refreshes only the denormalized include columns, all other entries
untouched; a successful `Update` whose value changed removes the old entry —
located by the record's id, not its value — and appends the fresh entry at
the end of the new value's bucket. -/
theorem bucket_insertion_order_policy (fi : FileIndexState) (e prev : Entity)
    (ic : FileIndexConfig) (hic : ic ∈ fi.indexConfigs)
    (hnodup : (fi.indexConfigs.map (fun x => x.field)).Nodup) :
    (∀ fi2, fi.Insert e = .ok fi2 →
      (fi2.getIndex ic.field).getBucket (e.GetValue ic.field) =
        (fi.getIndex ic.field).getBucket (e.GetValue ic.field) ++
          [createIndexEntry e ic.field ic.includes]) ∧
    (∀ fi2 k, fi.Update e prev = .ok fi2 →
      e.GetValue ic.field = prev.GetValue ic.field →
      ((fi.getIndex ic.field).getBucket (prev.GetValue ic.field)).findIdx?
          (fun item => prev.GetID == item.id) = some k →
      ((fi2.getIndex ic.field).getBucket (prev.GetValue ic.field)).length =
        ((fi.getIndex ic.field).getBucket (prev.GetValue ic.field)).length ∧
      (∀ j, j ≠ k →
        ((fi2.getIndex ic.field).getBucket (prev.GetValue ic.field)).get? j =
          ((fi.getIndex ic.field).getBucket (prev.GetValue ic.field)).get? j) ∧
      ((fi2.getIndex ic.field).getBucket (prev.GetValue ic.field)).get? k =
        (((fi.getIndex ic.field).getBucket (prev.GetValue ic.field)).get? k).map
          (refreshOthers e prev ic)) ∧
    (∀ fi2 k, fi.Update e prev = .ok fi2 →
      e.GetValue ic.field ≠ prev.GetValue ic.field →
      ((fi.getIndex ic.field).getBucket (prev.GetValue ic.field)).findIdx?
          (fun item => prev.GetID == item.id) = some k →
      (fi2.getIndex ic.field).getBucket (prev.GetValue ic.field) =
        ((fi.getIndex ic.field).getBucket (prev.GetValue ic.field)).eraseIdx k ∧
      (fi2.getIndex ic.field).getBucket (e.GetValue ic.field) =
        (fi.getIndex ic.field).getBucket (e.GetValue ic.field) ++
          [createIndexEntry e ic.field ic.includes]) := by
  refine ⟨?_, ?_, ?_⟩
  · intro fi2 h
    unfold FileIndexState.Insert at h
    cases hval : fi.indexConfigs.find? (fun x =>
        x.unique && !((fi.getIndex x.field).getBucket (e.GetValue x.field)).isEmpty) with
    | some x => rw [hval] at h; cases h
    | none =>
      rw [hval] at h
      simp only [Except.ok.injEq] at h
      subst h
      rw [(insert_fold_getIndex e fi.indexConfigs fi hnodup).1 ic hic,
        IndexMap.setBucket]
      exact mapRead_assign_self _ _ _ _
  · intro fi2 k h heq hk
    unfold FileIndexState.Update at h
    cases hval : fi.indexConfigs.find? (fun x =>
        (e.GetValue x.field != prev.GetValue x.field) && x.unique &&
        !((fi.getIndex x.field).getBucket (e.GetValue x.field)).isEmpty) with
    | some x => rw [hval] at h; cases h
    | none =>
      rw [hval] at h
      have hfold := goFold_fieldStep_ok (updateFieldMap e prev)
        (updateFieldMap_false_id e prev) fi.indexConfigs fi fi2 hnodup h
      obtain ⟨ch, hch⟩ := hfold.1 ic hic
      exact updateFieldMap_sameValue e prev ic (fi.getIndex ic.field) heq k hk
        (fi2.getIndex ic.field) ch hch
  · intro fi2 k h hne hk
    unfold FileIndexState.Update at h
    cases hval : fi.indexConfigs.find? (fun x =>
        (e.GetValue x.field != prev.GetValue x.field) && x.unique &&
        !((fi.getIndex x.field).getBucket (e.GetValue x.field)).isEmpty) with
    | some x => rw [hval] at h; cases h
    | none =>
      rw [hval] at h
      have hfold := goFold_fieldStep_ok (updateFieldMap e prev)
        (updateFieldMap_false_id e prev) fi.indexConfigs fi fi2 hnodup h
      obtain ⟨ch, hch⟩ := hfold.1 ic hic
      exact updateFieldMap_changedValue e prev ic (fi.getIndex ic.field) hne k hk
        (fi2.getIndex ic.field) ch hch

/-- Index state after inserting Alice (id 1) then Peter (id 2): the Age-20
bucket holds [Alice, Peter] in insertion order with denormalized names. -/
def fiA : FileIndexState :=
  { indexConfigs := [cfgName, cfgAge],
    indexes :=
      [("Name", [("Alice", [{ value := "Alice", id := 1, others := [] }]),
                 ("Peter", [{ value := "Peter", id := 2, others := [] }])]),
       ("Age", [("20", [{ value := "20", id := 1, others := [("Name", "Alice")] },
                        { value := "20", id := 2, others := [("Name", "Peter")] }])])],
    idxFiles := [("Name", []), ("Age", [])] }

/-- Alice as stored (id 1). -/
def alice1 : Entity := { id := 1, fields := [("Name", "Alice"), ("Age", "20")] }

/-- Alice renamed to "Alice S", same age, same id. -/
def aliceS : Entity := { id := 1, fields := [("Name", "Alice S"), ("Age", "20")] }

/-- The index state `Update aliceS alice1` produces from `fiA`. -/
def fiA2 : FileIndexState :=
  match fiA.Update aliceS alice1 with
  | .ok x => x
  | _ => fiA

/-- Witness for C7 at the spec's own scenario: after updating Alice's name
without changing her age, the Age-20 bucket keeps her entry at position 0 with
the refreshed denormalized name, and Peter's entry at position 1 unchanged. -/
theorem bucket_insertion_order_policy_witness :
    ((fiA2.getIndex cfgAge.field).getBucket (alice1.GetValue cfgAge.field)).get? 0 =
      (((fiA.getIndex cfgAge.field).getBucket (alice1.GetValue cfgAge.field)).get? 0).map
        (refreshOthers aliceS alice1 cfgAge) ∧
    ((fiA2.getIndex cfgAge.field).getBucket (alice1.GetValue cfgAge.field)).get? 1 =
      ((fiA.getIndex cfgAge.field).getBucket (alice1.GetValue cfgAge.field)).get? 1 := by
  have h := (bucket_insertion_order_policy fiA aliceS alice1 cfgAge (by decide)
    (by decide)).2.1 fiA2 0 (by decide) (by decide) (by decide)
  exact ⟨h.2.2, h.2.1 1 (by decide)⟩
